import Mathlib

/-!
Shallow embedding of the netfuse mediation layer.

Sources embedded:
  - src/inode.rs   : the inode store (hash map keyed by ino, trie keyed by
                     path components).  Paths are embedded as their component
                     sequences (the result of Path::iter), each component being
                     the byte list of an OsString; the sequence trie is embedded
                     by its observable key-to-value mapping.
  - src/cache.rs   : the per-inode cache entry.
  - src/lib.rs     : the FUSE dispatcher.  Backend calls are passed in as
                     explicit results; reply objects become inductive reply
                     values; calls to unwrap / expect / Index (and debug-build
                     arithmetic underflow) are modelled as Option, none meaning
                     the process aborts.

Every Rust integer in reach of the claims is far from its wrap point, so
machine integers are embedded as Nat (errnos as Int).
-/

/-- Bytes of an OsString path component. -/
abbrev OsString := List Nat

/-- A path, as its component sequence (what Path::iter yields; for an
absolute path the first component is the root component "/"). -/
abbrev FsPath := List OsString

/-- time::Timespec. -/
structure Timespec where
  sec : Int
  nsec : Int
deriving DecidableEq, Repr

/-- fuse::FileType. -/
inductive FileType where
  | namedPipe
  | charDevice
  | blockDevice
  | directory
  | regularFile
  | symlink
  | socket
deriving DecidableEq, Repr

/-- libc::ENOENT. -/
def ENOENT : Int := 2

/-- libc::EIO. -/
def eioErr : Int := 5

/-- libc::ENOSYS. -/
def ENOSYS : Int := 38

/-- libc::EACCES. -/
def EACCES : Int := 13

/-- nfs.rs Metadata. -/
structure Metadata where
  size : Nat
  atime : Timespec
  mtime : Timespec
  ctime : Timespec
  crtime : Timespec
  kind : FileType
  perm : Nat
deriving DecidableEq, Repr

/-- fuse::FileAttr. -/
structure FileAttr where
  ino : Nat
  size : Nat
  blocks : Nat
  atime : Timespec
  mtime : Timespec
  ctime : Timespec
  crtime : Timespec
  kind : FileType
  perm : Nat
  nlink : Nat
  uid : Nat
  gid : Nat
  rdev : Nat
  flags : Nat
deriving DecidableEq, Repr

instance exceptDecEq {e a : Type} [DecidableEq e] [DecidableEq a] : DecidableEq (Except e a) :=
  fun x y =>
    match x, y with
    | .ok u, .ok v =>
      if h : u = v then isTrue (by rw [h]) else isFalse (fun hc => h (Except.ok.inj hc))
    | .error u, .error v =>
      if h : u = v then isTrue (by rw [h]) else isFalse (fun hc => h (Except.error.inj hc))
    | .ok _, .error _ => isFalse (fun hc => Except.noConfusion hc)
    | .error _, .ok _ => isFalse (fun hc => Except.noConfusion hc)

/-- Lookup in an association list (the embedding of HashMap / SequenceTrie
lookups; first binding wins, and the operations below never create a second
binding for a key). -/
def alistGet {a b : Type} [DecidableEq a] : List (a × b) → a → Option b
  | [], _ => none
  | (k, v) :: m, k' => if k = k' then some v else alistGet m k'

/-- Insert or replace a binding (HashMap::insert / setting a trie value). -/
def alistPut {a b : Type} [DecidableEq a] (m : List (a × b)) (k : a) (v : b) : List (a × b) :=
  (k, v) :: m.filter (fun p => decide (p.1 ≠ k))

/-- Delete a binding (HashMap::remove / SequenceTrie::remove of a key). -/
def alistDel {a b : Type} [DecidableEq a] (m : List (a × b)) (k : a) : List (a × b) :=
  m.filter (fun p => decide (p.1 ≠ k))

/-- The UTF-8 replacement character U+FFFD, as its UTF-8 bytes. -/
def utf8Repl : List Nat := [239, 191, 189]

/-- Is the byte a UTF-8 continuation byte. -/
def utf8Cont (b : Nat) : Bool := decide (128 ≤ b ∧ b ≤ 191)

/-- One step of UTF-8 decoding: given the lead byte and the bytes after it,
return how many input bytes are consumed (at least one) and the bytes emitted.
Invalid or incomplete sequences produce one replacement character for the
maximal valid prefix, restarting at the offending byte, matching the
behaviour of String::from_utf8_lossy. -/
def utf8Unit (b : Nat) (rest : List Nat) : Nat × List Nat :=
  if b < 128 then (1, [b])
  else if 194 ≤ b ∧ b ≤ 223 then
    match rest with
    | [] => (1, utf8Repl)
    | c1 :: _ =>
      if utf8Cont c1 then (2, [b, c1]) else (1, utf8Repl)
  else if 224 ≤ b ∧ b ≤ 239 then
    match rest with
    | [] => (1, utf8Repl)
    | c1 :: rest1 =>
      let ok1 : Bool :=
        if b = 224 then decide (160 ≤ c1 ∧ c1 ≤ 191)
        else if b = 237 then decide (128 ≤ c1 ∧ c1 ≤ 159)
        else utf8Cont c1
      if ok1 then
        match rest1 with
        | [] => (2, utf8Repl)
        | c2 :: _ =>
          if utf8Cont c2 then (3, [b, c1, c2]) else (2, utf8Repl)
      else (1, utf8Repl)
  else if 240 ≤ b ∧ b ≤ 244 then
    match rest with
    | [] => (1, utf8Repl)
    | c1 :: rest1 =>
      let ok1 : Bool :=
        if b = 240 then decide (144 ≤ c1 ∧ c1 ≤ 191)
        else if b = 244 then decide (128 ≤ c1 ∧ c1 ≤ 143)
        else utf8Cont c1
      if ok1 then
        match rest1 with
        | [] => (2, utf8Repl)
        | c2 :: rest2 =>
          if utf8Cont c2 then
            match rest2 with
            | [] => (3, utf8Repl)
            | c3 :: _ =>
              if utf8Cont c3 then (4, [b, c1, c2, c3]) else (3, utf8Repl)
          else (2, utf8Repl)
      else (1, utf8Repl)
  else (1, utf8Repl)

/-- Decoding loop: fuel is an upper bound on the remaining input length, so
the zero-fuel arm with a nonempty list is never reached; every step consumes
at least one input byte. -/
def utf8LossyGo : Nat → List Nat → List Nat
  | _, [] => []
  | 0, _ :: _ => []
  | fuel + 1, b :: rest =>
    let u := utf8Unit b rest
    u.2 ++ utf8LossyGo fuel (rest.drop (u.1 - 1))

/-- OsStr::to_string_lossy on the bytes of one component: valid UTF-8 passes
through unchanged, invalid sequences become replacement characters. -/
def utf8Lossy (l : List Nat) : List Nat := utf8LossyGo l.length l

/-- inode.rs Inode. -/
structure Inode where
  path : FsPath
  attr : FileAttr
  visited : Bool
deriving DecidableEq, Repr

/-- Inode::new: the visited flag starts false. -/
def Inode.new (path : FsPath) (attr : FileAttr) : Inode :=
  { path := path, attr := attr, visited := false }

/-- inode.rs InodeStore.  The sequence trie is embedded by its key-to-value
mapping from full component sequences to ino values. -/
structure InodeStore where
  inode_map : List (Nat × Inode)
  ino_trie : List (FsPath × Nat)
  uid : Nat
  gid : Nat
  last_ino : Nat
deriving DecidableEq, Repr

instance : Inhabited InodeStore := ⟨⟨[], [], 0, 0, 0⟩⟩

/-- inode.rs path_to_sequence: a path is already embedded as its component
sequence, so this is the identity in the embedding. -/
def path_to_sequence (path : FsPath) : FsPath := path

/-- The component sequence of the root path "/". -/
def rootPath : FsPath := [[47]]

/-- InodeStore::get. -/
def InodeStore.get (s : InodeStore) (ino : Nat) : Option Inode :=
  alistGet s.inode_map ino

/- InodeStore::get_mut exists in the source; mutation through it is embedded
at each call site by rebuilding the map with alistPut. -/

/-- InodeStore::insert.  On an ino that is already bound the source panics
unless the stored path equals the new path; the panic is modelled as none.
The ino_trie update combines trie insert with the fallback that overwrites
the value of an existing node; its net effect is binding the sequence. -/
def InodeStore.insert (s : InodeStore) (inode : Inode) : Option InodeStore :=
  let ino := inode.attr.ino
  let sequence := path_to_sequence inode.path
  let m2 := alistPut s.inode_map ino inode
  let t2 := alistPut s.ino_trie sequence ino
  match alistGet s.inode_map ino with
  | some old =>
    if old.path = inode.path then some { s with inode_map := m2, ino_trie := t2 } else none
  | none => some { s with inode_map := m2, ino_trie := t2 }

/-- The FileAttr that InodeStore::new builds for the filesystem root. -/
def rootAttr (perm uid gid : Nat) (now : Timespec) : FileAttr :=
  { ino := 1, size := 0, blocks := 0, atime := now, mtime := now, ctime := now,
    crtime := now, kind := .directory, perm := perm, nlink := 0, uid := uid,
    gid := gid, rdev := 0, flags := 0 }

/-- InodeStore::new: last_ino starts at 1 (reserved for root) and the root
inode is inserted at path "/".  The clock read is passed in as now. -/
def InodeStore.new (perm uid gid : Nat) (now : Timespec) : Option InodeStore :=
  let store : InodeStore :=
    { inode_map := [], ino_trie := [], uid := uid, gid := gid, last_ino := 1 }
  store.insert (Inode.new rootPath (rootAttr perm uid gid now))

/-- InodeStore::get_by_path. -/
def InodeStore.get_by_path (s : InodeStore) (path : FsPath) : Option Inode :=
  (alistGet s.ino_trie (path_to_sequence path)).bind fun ino => s.get ino

/-- The FileAttr that InodeStore::insert_metadata builds from Metadata. -/
def metaToAttr (ino : Nat) (metadata : Metadata) (uid gid : Nat) : FileAttr :=
  { ino := ino, size := metadata.size, blocks := 0, atime := metadata.atime,
    mtime := metadata.mtime, ctime := metadata.ctime, crtime := metadata.crtime,
    kind := metadata.kind, perm := metadata.perm, nlink := 0, uid := uid,
    gid := gid, rdev := 0, flags := 0 }

/-- InodeStore::insert_metadata: reuse the ino of an inode already stored at
this path, otherwise allocate last_ino + 1 from the monotone counter. -/
def InodeStore.insert_metadata (s : InodeStore) (path : FsPath) (metadata : Metadata) :
    Option (InodeStore × Inode) :=
  let ino_opt := (s.get_by_path path).map (fun inode => inode.attr.ino)
  let alloc : Nat × InodeStore :=
    match ino_opt with
    | some i => (i, s)
    | none => (s.last_ino + 1, { s with last_ino := s.last_ino + 1 })
  let ino := alloc.1
  let s1 := alloc.2
  let attr := metaToAttr ino metadata s1.uid s1.gid
  (s1.insert (Inode.new path attr)).bind fun s2 =>
    (s2.get ino).map fun inode => (s2, inode)

/-- InodeStore::child: extend the parent component sequence by name and probe
the trie. -/
def InodeStore.child (s : InodeStore) (ino : Nat) (name : OsString) : Option Inode :=
  (s.get ino).bind fun inode =>
    (alistGet s.ino_trie (path_to_sequence inode.path ++ [name])).bind fun cino => s.get cino

/-- Does one sequence lead another (component-wise prefix). -/
def fsLeads : FsPath → FsPath → Bool
  | [], _ => true
  | _ :: _, [] => false
  | c :: cs, d :: ds => decide (c = d) && fsLeads cs ds

/-- Does a trie node exist for this sequence: the root node always exists,
and otherwise exactly the nodes on the path to some bound key survive
insertion and pruning. -/
def InodeStore.node_exists (s : InodeStore) (sequence : FsPath) : Bool :=
  sequence.isEmpty || s.ino_trie.any (fun p => fsLeads sequence p.1)

/-- InodeStore::children: the values bound one component below the node of
this path; each must resolve in the inode map (expect, modelled as none). -/
def InodeStore.children (s : InodeStore) (ino : Nat) : Option (List Inode) :=
  match s.get ino with
  | some inode =>
    let sequence := path_to_sequence inode.path
    if s.node_exists sequence then
      let childInos :=
        (s.ino_trie.filter
          (fun p => decide (p.1.length = sequence.length + 1) && fsLeads sequence p.1)).map (·.2)
      childInos.foldr (fun ci acc => acc.bind fun l => (s.get ci).map (fun n => n :: l)) (some [])
    else none
  | none => some []

/-- InodeStore::parent: root is its own parent, otherwise drop the last
component and probe the trie. -/
def InodeStore.parent (s : InodeStore) (ino : Nat) : Option Inode :=
  if ino = 1 then s.get 1
  else
    (s.get ino).bind fun inode =>
      let sequence := path_to_sequence inode.path
      if sequence.length = 1 then s.get 1
      else (alistGet s.ino_trie (sequence.take (sequence.length - 1))).bind fun p_ino => s.get p_ino

/-- InodeStore::remove: drop the ino from both maps; the two trailing asserts
of the source are kept (their failure would be none). -/
def InodeStore.remove (s : InodeStore) (ino : Nat) : Option InodeStore :=
  (alistGet s.inode_map ino).bind fun inode =>
    let sequence := path_to_sequence inode.path
    let m2 := alistDel s.inode_map ino
    let t2 := alistDel s.ino_trie sequence
    if alistGet m2 ino = none ∧ alistGet t2 sequence = none then
      some { s with inode_map := m2, ino_trie := t2 }
    else none

/-- cache.rs CacheEntry. -/
structure CacheEntry where
  data : List Nat
  warm : Bool
  sync : Bool
  handles : Nat
deriving DecidableEq, Repr

/-- CacheEntry::new. -/
def CacheEntry.new : CacheEntry :=
  { data := [], warm := false, sync := false, handles := 0 }

/-- CacheEntry::set. -/
def CacheEntry.set (e : CacheEntry) (data : List Nat) : CacheEntry :=
  { e with sync := false, warm := true, data := data }

/-- Vec::resize(n, v): truncate to n elements or pad with v up to n. -/
def listResize (l : List Nat) (n : Nat) (v : Nat) : List Nat :=
  if n ≤ l.length then l.take n else l ++ List.replicate (n - l.length) v

/-- CacheEntry::write: resize the buffer to exactly offset + data.len (the
source calls Vec::resize, which truncates a longer buffer), then copy data
into the range starting at offset. -/
def CacheEntry.write (e : CacheEntry) (offset : Nat) (data : List Nat) : CacheEntry :=
  let endPos := offset + data.length
  let resized := listResize e.data endPos 0
  { e with sync := false, warm := true,
           data := resized.take offset ++ data ++ resized.drop endPos }

/-- CacheEntry::released: handles - 1 on a u32; at handles = 0 the
subtraction underflows, an abort in a debug build, modelled as none. -/
def CacheEntry.released (e : CacheEntry) : Option (CacheEntry × Nat) :=
  match e.handles with
  | 0 => none
  | n + 1 => some ({ e with handles := n }, n)

/-- CacheEntry::opened. -/
def CacheEntry.opened (e : CacheEntry) : CacheEntry × Nat :=
  ({ e with handles := e.handles + 1 }, e.handles + 1)

/-- lib.rs NetFuse state: the inode store plus the per-ino cache map. -/
structure NetFuseState where
  inodes : InodeStore
  cache : List (Nat × CacheEntry)
  uid : Nat
  gid : Nat
deriving DecidableEq, Repr

/-- FUSE ReplyEntry. -/
inductive EntryReply where
  | entry (attr : FileAttr)
  | error (e : Int)
deriving DecidableEq, Repr

/-- FUSE ReplyData. -/
inductive DataReply where
  | data (d : List Nat)
  | error (e : Int)
deriving DecidableEq, Repr

/-- FUSE ReplyEmpty. -/
inductive EmptyReply where
  | ok
  | error (e : Int)
deriving DecidableEq, Repr

/-- FUSE ReplyDirectory: the entries passed to reply.add, as
(name, ino, kind), then ok; or an error. -/
inductive DirReply where
  | ok (entries : List (OsString × Nat × FileType))
  | error (e : Int)
deriving DecidableEq, Repr

/-- FUSE ReplyWrite. -/
inductive WriteReply where
  | written (n : Nat)
  | error (e : Int)
deriving DecidableEq, Repr

/-- lib.rs NetFuse::insert_metadata: allocates ino = inodes.len() + 1 and
registers the inode under the to_string_lossy image of the path (applied
componentwise, since the lossy conversion maps each component separately). -/
def NetFuse.insert_metadata (st : NetFuseState) (path : FsPath) (metadata : Metadata) :
    Option (NetFuseState × Inode) :=
  let ino := st.inodes.inode_map.length + 1
  let attr := metaToAttr ino metadata st.uid st.gid
  let lossyPath := path.map utf8Lossy
  (st.inodes.insert (Inode.new lossyPath attr)).bind fun s2 =>
    (s2.get ino).map fun inode => ({ st with inodes := s2 }, inode)

/-- lib.rs get_basename: the final path component. -/
def get_basename (path : FsPath) : OsString :=
  (path.getLast?).getD []

/-- lib.rs NetFuse::flush_cache_if_needed.  The backend write outcome is the
backendWrite argument; the last component counts backend writes issued.
unwrap on a missing cache entry and indexing a missing inode are none. -/
def NetFuse.flush_cache_if_needed (st : NetFuseState) (backendWrite : Except Int Unit)
    (ino : Nat) : Option (NetFuseState × Except Int Bool × Nat) :=
  (alistGet st.cache ino).bind fun entry =>
    if entry.warm && !entry.sync then
      (st.inodes.get ino).bind fun _inode =>
        match backendWrite with
        | .error e => some (st, .error e, 1)
        | .ok _ =>
          (alistGet st.cache ino).bind fun entry2 =>
            some ({ st with cache := alistPut st.cache ino { entry2 with sync := true } },
                  .ok true, 1)
    else some (st, .ok false, 0)

/-- lib.rs NetFuse::read_to_cache_if_needed: nothing to do on a warm entry;
otherwise fill the entry from the backend read and mark it sync. -/
def NetFuse.read_to_cache_if_needed (st : NetFuseState) (backendRead : Except Int (List Nat))
    (ino : Nat) : Option (NetFuseState × Except Int Bool) :=
  (alistGet st.cache ino).bind fun entry =>
    if entry.warm then some (st, .ok false)
    else
      (st.inodes.get ino).bind fun _inode =>
        match backendRead with
        | .error e => some (st, .error e)
        | .ok buffer =>
          let entry2 := { entry.set buffer with sync := true }
          some ({ st with cache := alistPut st.cache ino entry2 }, .ok true)

/-- lib.rs Filesystem::lookup for NetFuse.  The final component records
whether the backend lookup was called.  The incoming name is converted with
to_string_lossy before any use, as in the source. -/
def NetFuse.lookup (st : NetFuseState) (backendLookup : Except Int Metadata)
    (parent : Nat) (name : OsString) : Option (NetFuseState × EntryReply × Bool) :=
  let nameL := utf8Lossy name
  match st.inodes.child parent nameL with
  | some child_inode => some (st, .entry child_inode.attr, false)
  | none =>
    (st.inodes.get parent).bind fun parent_inode =>
      if parent_inode.visited then some (st, .error ENOENT, false)
      else
        let child_path := parent_inode.path ++ [nameL]
        match backendLookup with
        | .ok child_metadata =>
          (NetFuse.insert_metadata st child_path child_metadata).map fun r =>
            (r.1, .entry r.2.attr, true)
        | .error _err => some (st, .error ENOENT, true)

/-- lib.rs Filesystem::getattr for NetFuse. -/
def NetFuse.getattr (st : NetFuseState) (ino : Nat) : EntryReply :=
  match st.inodes.get ino with
  | some inode => .entry inode.attr
  | none => .error ENOENT

/-- lib.rs Filesystem::read for NetFuse: warm the cache if needed, then slice
the buffer; past the end of the buffer the reply is ENOENT. -/
def NetFuse.read (st : NetFuseState) (backendRead : Except Int (List Nat))
    (ino offset size : Nat) : Option (NetFuseState × DataReply) :=
  (NetFuse.read_to_cache_if_needed st backendRead ino).bind fun res =>
    match res.2 with
    | .error err => some (res.1, .error err)
    | .ok _ =>
      (alistGet res.1.cache ino).bind fun entry =>
        let buffer := entry.data
        let end_offset := offset + size
        if buffer.length > offset + size then
          some (res.1, .data ((buffer.drop offset).take (end_offset - offset)))
        else if buffer.length > offset then
          some (res.1, .data (buffer.drop offset))
        else
          some (res.1, .error ENOENT)

/-- The loop body of lib.rs Filesystem::readdir over the backend listing:
each entry is registered through NetFuse::insert_metadata and added to the
reply; a per-entry error aborts with that error (discarding the reply
entries added so far, as reply.error does). -/
def NetFuse.readdirLoop (st : NetFuseState) (parentPath : FsPath)
    (acc : List (OsString × Nat × FileType)) :
    List (Except Int (OsString × Metadata)) → Option (NetFuseState × DirReply)
  | [] => some (st, .ok acc)
  | item :: rest =>
    match item with
    | .error err => some (st, .error err)
    | .ok fm =>
      let filename := utf8Lossy fm.1
      let child_path := parentPath ++ [filename]
      (NetFuse.insert_metadata st child_path fm.2).bind fun r =>
        NetFuse.readdirLoop r.1 parentPath (acc ++ [(filename, r.2.attr.ino, r.2.attr.kind)]) rest

/-- lib.rs NetFuse::cache_readdir: children of the inode from the store,
as (basename, attr). -/
def NetFuse.cache_readdir (st : NetFuseState) (ino : Nat) :
    Option (List (OsString × FileAttr)) :=
  (st.inodes.children ino).map fun cs => cs.map fun child => (get_basename child.path, child.attr)

/-- lib.rs Filesystem::readdir for NetFuse.  backendList is the stream the
backend readdir would produce; the final component records whether it was
consulted.  A positive offset replies ok with nothing added; otherwise "."
and ".." are added and the listing comes from the store when the directory
is marked visited, else from the backend. -/
def NetFuse.readdir (st : NetFuseState) (backendList : List (Except Int (OsString × Metadata)))
    (ino : Nat) (offset : Nat) : Option (NetFuseState × DirReply × Bool) :=
  if offset > 0 then some (st, .ok [], false)
  else
    (if ino = 1 then some 1 else (st.inodes.parent ino).map (fun p => p.attr.ino)).bind
      fun parent_ino =>
        let base : List (OsString × Nat × FileType) :=
          [([46], ino, .directory), ([46, 46], parent_ino, .directory)]
        let dir_visited := ((st.inodes.get ino).map (·.visited)).getD false
        if dir_visited then
          (NetFuse.cache_readdir st ino).map fun entries =>
            (st, .ok (base ++ entries.map fun fe => (fe.1, fe.2.ino, fe.2.kind)), false)
        else
          (st.inodes.get ino).bind fun inode =>
            (NetFuse.readdirLoop st inode.path base backendList).map fun r => (r.1, r.2, true)

/-- lib.rs Filesystem::release for NetFuse: decrement handles; at zero
handles flush if needed (ignoring errors), then drop the entry when it is
sync or was never warmed; always reply ok.  The final component counts
backend writes issued. -/
def NetFuse.release (st : NetFuseState) (backendWrite : Except Int Unit) (ino : Nat) :
    Option (NetFuseState × EmptyReply × Nat) :=
  (alistGet st.cache ino).bind fun entry =>
    (entry.released).bind fun er =>
      let entry1 := er.1
      let handles := er.2
      let st1 := { st with cache := alistPut st.cache ino entry1 }
      let afterFlush : Option (NetFuseState × Nat) :=
        if handles = 0 then
          (NetFuse.flush_cache_if_needed st1 backendWrite ino).map fun res => (res.1, res.2.2)
        else some (st1, 0)
      afterFlush.bind fun sf =>
        (alistGet sf.1.cache ino).bind fun e2 =>
          let st3 :=
            if handles = 0 ∧ (e2.sync = true ∨ e2.warm = false) then
              { sf.1 with cache := alistDel sf.1.cache ino }
            else sf.1
          some (st3, .ok, sf.2)

/-- lib.rs Filesystem::fsync for NetFuse: flush, replying ok on success and
EIO on any error.  The final component counts backend writes issued. -/
def NetFuse.fsync (st : NetFuseState) (backendWrite : Except Int Unit) (ino : Nat) :
    Option (NetFuseState × EmptyReply × Nat) :=
  (NetFuse.flush_cache_if_needed st backendWrite ino).map fun res =>
    match res.2.1 with
    | .ok _ => (res.1, .ok, res.2.2)
    | .error _ => (res.1, .error eioErr, res.2.2)

/-- lib.rs Filesystem::write for NetFuse: a write at offset 0 larger than the
recorded size skips warming; otherwise warm the cache first.  The entry is
grown when the write extends past the recorded size, written through
CacheEntry::write, and the inode size is set to the resulting buffer
length. -/
def NetFuse.write (st : NetFuseState) (backendRead : Except Int (List Nat))
    (ino offset : Nat) (data : List Nat) : Option (NetFuseState × WriteReply) :=
  (st.inodes.get ino).bind fun inode0 =>
    let is_replace := offset = 0 ∧ inode0.attr.size < data.length
    let warmed : Option (NetFuseState × Option Int) :=
      if is_replace then some (st, none)
      else
        (NetFuse.read_to_cache_if_needed st backendRead ino).map fun r =>
          match r.2 with
          | .error e => (r.1, some e)
          | .ok _ => (r.1, none)
    warmed.bind fun w =>
      match w.2 with
      | some e => some (w.1, .error e)
      | none =>
        match alistGet w.1.cache ino with
        | none => some (w.1, .error ENOENT)
        | some entry =>
          let endPos := data.length + offset
          (w.1.inodes.get ino).bind fun inodeNow =>
            let entry1 :=
              if endPos > inodeNow.attr.size then
                { entry with data := listResize entry.data endPos 0 }
              else entry
            let entry2 := entry1.write offset data
            let st2 := { w.1 with cache := alistPut w.1.cache ino entry2 }
            (st2.inodes.get ino).bind fun inode2 =>
              let inode3 := { inode2 with attr := { inode2.attr with size := entry2.data.length } }
              some ({ st2 with
                        inodes := { st2.inodes with
                                      inode_map := alistPut st2.inodes.inode_map ino inode3 } },
                    .written data.length)

/-- A store operation of inode.rs: insert, insert_metadata or remove. -/
inductive StoreOp where
  | insert (inode : Inode)
  | insert_metadata (path : FsPath) (metadata : Metadata)
  | remove (ino : Nat)

/-- Effect of one store operation (none when the source would abort). -/
def StoreOp.step (op : StoreOp) (s : InodeStore) : Option InodeStore :=
  match op with
  | .insert inode => s.insert inode
  | .insert_metadata path metadata => (s.insert_metadata path metadata).map (·.1)
  | .remove ino => s.remove ino

/-- A raw insert is safe when its path is not yet bound in the trie, or is
bound to this very ino.  (The source accepts an insert that rebinds a path
to a different ino without aborting: the guarding panic in
InodeStore::insert is commented out.)  The other operations carry no side
condition. -/
def StoreOp.safe (op : StoreOp) (s : InodeStore) : Prop :=
  match op with
  | .insert inode =>
      alistGet s.ino_trie (path_to_sequence inode.path) = none ∨
      alistGet s.ino_trie (path_to_sequence inode.path) = some inode.attr.ino
  | .insert_metadata _ _ => True
  | .remove _ => True

/-- Run a list of store operations from a state. -/
def runOps (s : InodeStore) : List StoreOp → Option InodeStore
  | [] => some s
  | op :: ops => (op.step s).bind fun s2 => runOps s2 ops

/-- States reachable from a fresh store by insert / insert_metadata / remove,
where every raw insert satisfies StoreOp.safe. -/
inductive ReachSafe : InodeStore → Prop where
  | init (perm uid gid : Nat) (now : Timespec) (s : InodeStore) :
      InodeStore.new perm uid gid now = some s → ReachSafe s
  | step (s s2 : InodeStore) (op : StoreOp) :
      ReachSafe s → op.safe s → op.step s = some s2 → ReachSafe s2

/-- States reachable from a fresh store by insert_metadata and remove alone
(the operations named by the allocation claim). -/
inductive ReachMR : InodeStore → Prop where
  | init (perm uid gid : Nat) (now : Timespec) (s : InodeStore) :
      InodeStore.new perm uid gid now = some s → ReachMR s
  | stepMeta (s s2 : InodeStore) (path : FsPath) (metadata : Metadata) (inode : Inode) :
      ReachMR s → s.insert_metadata path metadata = some (s2, inode) → ReachMR s2
  | stepRemove (s s2 : InodeStore) (ino : Nat) :
      ReachMR s → s.remove ino = some s2 → ReachMR s2

/-- The two maps of the store agree bidirectionally: the path of every inode
resolves through the trie back to its ino, and every trie value resolves
through the inode map back to an inode holding that very path. -/
def MapTrieAgree (s : InodeStore) : Prop :=
  (∀ ino inode, alistGet s.inode_map ino = some inode →
      alistGet s.ino_trie (path_to_sequence inode.path) = some ino) ∧
  (∀ sequence ino, alistGet s.ino_trie sequence = some ino →
      ∃ inode, alistGet s.inode_map ino = some inode ∧ path_to_sequence inode.path = sequence)

/-- Every inode map binding stores the key as its attr.ino. -/
def KeysAreInos (s : InodeStore) : Prop :=
  ∀ ino inode, alistGet s.inode_map ino = some inode → inode.attr.ino = ino

/-- The store invariant carried through reachable states. -/
def StoreInv (s : InodeStore) : Prop := MapTrieAgree s ∧ KeysAreInos s

/-- Every bound ino is at most the allocation counter. -/
def InoBound (s : InodeStore) : Prop :=
  ∀ ino inode, alistGet s.inode_map ino = some inode → ino ≤ s.last_ino

/-- The zero clock value used by the concrete fixtures. -/
def tsZero : Timespec := ⟨0, 0⟩

/-- The store of a fresh mount: InodeStore::new(0o550, 1000, 1000). -/
def freshStoreEx : InodeStore :=
  (InodeStore.new 360 1000 1000 tsZero).getD default

/-- Dispatcher state of a fresh mount. -/
def netFreshState : NetFuseState :=
  { inodes := freshStoreEx, cache := [], uid := 1000, gid := 1000 }

/-- A regular-file Metadata fixture. -/
def metaFile (size : Nat) : Metadata :=
  { size := size, atime := tsZero, mtime := tsZero, ctime := tsZero, crtime := tsZero,
    kind := .regularFile, perm := 420 }

/-- A plain FileAttr fixture for raw inserts. -/
def plainAttr (ino : Nat) : FileAttr :=
  { ino := ino, size := 0, blocks := 0, atime := tsZero, mtime := tsZero, ctime := tsZero,
    crtime := tsZero, kind := .regularFile, perm := 420, nlink := 0, uid := 1000,
    gid := 1000, rdev := 0, flags := 0 }

/-- Backend listing used by the readdir scenario: a single file "a". -/
def c1Backend : List (Except Int (OsString × Metadata)) :=
  [Except.ok ([97], metaFile 5)]

/-- Dispatcher state after the first readdir of the scenario. -/
def c1After1 : NetFuseState :=
  ((NetFuse.readdir netFreshState c1Backend 1 0).map (·.1)).getD netFreshState

/-- A cache entry holding bytes 1 2 3 4 5. -/
def c3Entry : CacheEntry := { data := [1, 2, 3, 4, 5], warm := true, sync := true, handles := 0 }

/-- An empty, never-warmed cache entry. -/
def c3Empty : CacheEntry := { data := [], warm := false, sync := false, handles := 0 }

/-- Result of registering the non-UTF-8 path "/\xFF" directly in the store. -/
def c5Run : Option (InodeStore × Inode) :=
  InodeStore.insert_metadata freshStoreEx [[47], [255]] (metaFile 0)

/-- The store after that registration. -/
def c5StoreAfter : InodeStore := (c5Run.map (·.1)).getD default

/-- The inode it returned. -/
def c5Inode : Inode := (c5Run.map (·.2)).getD (Inode.new [] (plainAttr 0))

/-- A store holding the file "/x" as ino 2 next to the root. -/
def store2 : InodeStore :=
  ((InodeStore.insert_metadata freshStoreEx [[47], [120]] (metaFile 1)).map (·.1)).getD default

/-- Dispatcher state with a warm entry for ino 2 (data 1 2 3, in sync). -/
def c6State : NetFuseState :=
  { inodes := store2, cache := [(2, { data := [1, 2, 3], warm := true, sync := true, handles := 1 })],
    uid := 1000, gid := 1000 }

/-- Dispatcher state with a dirty entry for ino 2 held by one open handle. -/
def c7State : NetFuseState :=
  { inodes := store2, cache := [(2, { data := [7], warm := true, sync := false, handles := 1 })],
    uid := 1000, gid := 1000 }

/-- Dispatcher state with a dirty entry for ino 2 (single byte 1). -/
def c8State : NetFuseState :=
  { inodes := store2, cache := [(2, { data := [1], warm := true, sync := false, handles := 1 })],
    uid := 1000, gid := 1000 }

/-- Dispatcher state whose entry for ino 2 has zero open handles. -/
def c10ZeroState : NetFuseState :=
  { inodes := store2, cache := [(2, { data := [1], warm := true, sync := false, handles := 0 })],
    uid := 1000, gid := 1000 }

/-- The inode "/a" as ino 2, for the conflicting-insert scenario. -/
def c9Inode2 : Inode := Inode.new [[47], [97]] (plainAttr 2)

/-- The inode "/a" again, but as ino 3. -/
def c9Inode3 : Inode := Inode.new [[47], [97]] (plainAttr 3)

/-- Insert "/a" as ino 2, then insert "/a" again as ino 3. -/
def c9Ops : List StoreOp := [StoreOp.insert c9Inode2, StoreOp.insert c9Inode3]

/-- The store reached by running those two inserts from a fresh store. -/
def c9Store : InodeStore := ((runOps freshStoreEx c9Ops).getD default)

/-- Result of one insert_metadata of "/a" on the fresh store. -/
def c2Run : Option (InodeStore × Inode) :=
  InodeStore.insert_metadata freshStoreEx [[47], [97]] (metaFile 5)

/-- The store that registration produced. -/
def c2Store : InodeStore := (c2Run.map (·.1)).getD default

/-- The inode that registration produced. -/
def c2Inode : Inode := (c2Run.map (·.2)).getD (Inode.new [] (plainAttr 0))

/-- The inode stored for "/x" (ino 2) in store2. -/
def c7Inode : Inode := (store2.get 2).getD (Inode.new [] (plainAttr 0))

/-- State after one successful fsync of the dirty entry of c8State. -/
def c8After1 : NetFuseState :=
  ((NetFuse.fsync c8State (Except.ok ()) 2).map (·.1)).getD c8State

theorem alistGet_cons {a b : Type} [DecidableEq a] (x : a) (y : b) (m : List (a × b)) (k : a) :
    alistGet ((x, y) :: m) k = if x = k then some y else alistGet m k := rfl

theorem alistGet_filter_ne {a b : Type} [DecidableEq a] (m : List (a × b)) (k k2 : a)
    (h : k2 ≠ k) :
    alistGet (m.filter (fun p => decide (p.1 ≠ k))) k2 = alistGet m k2 := by
  induction m with
  | nil => rfl
  | cons p m ih =>
    obtain ⟨x, y⟩ := p
    by_cases hx : x = k
    · subst hx
      simp only [List.filter_cons]
      rw [if_neg (by simp), ih, alistGet_cons, if_neg (fun hh => h hh.symm)]
    · simp only [List.filter_cons]
      rw [if_pos (by simp [hx]), alistGet_cons, alistGet_cons, ih]

theorem alistGet_put_self {a b : Type} [DecidableEq a] (m : List (a × b)) (k : a) (v : b) :
    alistGet (alistPut m k v) k = some v := by
  simp [alistPut, alistGet_cons]

theorem alistGet_put_ne {a b : Type} [DecidableEq a] (m : List (a × b)) (k k2 : a) (v : b)
    (h : k2 ≠ k) :
    alistGet (alistPut m k v) k2 = alistGet m k2 := by
  rw [alistPut, alistGet_cons, if_neg (fun hh => h hh.symm)]
  exact alistGet_filter_ne m k k2 h

theorem alistGet_del_self {a b : Type} [DecidableEq a] (m : List (a × b)) (k : a) :
    alistGet (alistDel m k) k = none := by
  induction m with
  | nil => rfl
  | cons p m ih =>
    obtain ⟨x, y⟩ := p
    by_cases hx : x = k
    · subst hx
      rw [alistDel, List.filter_cons, if_neg (by simp)]
      exact ih
    · rw [alistDel, List.filter_cons, if_pos (by simp [hx]), alistGet_cons,
          if_neg hx]
      exact ih

theorem alistGet_del_ne {a b : Type} [DecidableEq a] (m : List (a × b)) (k k2 : a)
    (h : k2 ≠ k) :
    alistGet (alistDel m k) k2 = alistGet m k2 :=
  alistGet_filter_ne m k k2 h

theorem InodeStore.insert_spec (s : InodeStore) (inode : Inode) (s2 : InodeStore)
    (h : s.insert inode = some s2) :
    s2.inode_map = alistPut s.inode_map inode.attr.ino inode ∧
    s2.ino_trie = alistPut s.ino_trie (path_to_sequence inode.path) inode.attr.ino ∧
    s2.uid = s.uid ∧ s2.gid = s.gid ∧ s2.last_ino = s.last_ino ∧
    (∀ old, alistGet s.inode_map inode.attr.ino = some old → old.path = inode.path) := by
  unfold InodeStore.insert at h
  simp only [] at h
  cases hm : alistGet s.inode_map inode.attr.ino with
  | none =>
    rw [hm] at h
    simp only [Option.some.injEq] at h
    subst h
    refine ⟨rfl, rfl, rfl, rfl, rfl, ?_⟩
    intro old hold
    exact absurd hold (by simp)
  | some old0 =>
    rw [hm] at h
    simp only [] at h
    by_cases hp : old0.path = inode.path
    · rw [if_pos hp] at h
      simp only [Option.some.injEq] at h
      subst h
      refine ⟨rfl, rfl, rfl, rfl, rfl, ?_⟩
      intro old hold
      cases hold
      exact hp
    · rw [if_neg hp] at h
      exact absurd h (by simp)

theorem Inode_new_path (p : FsPath) (a : FileAttr) : (Inode.new p a).path = p := rfl

theorem Inode_new_attr (p : FsPath) (a : FileAttr) : (Inode.new p a).attr = a := rfl

theorem metaToAttr_ino (i : Nat) (m : Metadata) (u g : Nat) : (metaToAttr i m u g).ino = i := rfl

theorem InodeStore.insert_metadata_spec (s : InodeStore) (path : FsPath) (metadata : Metadata)
    (s2 : InodeStore) (inode : Inode)
    (h : s.insert_metadata path metadata = some (s2, inode)) :
    ∃ ino,
      ((∃ n0, s.get_by_path path = some n0 ∧ ino = n0.attr.ino ∧ s2.last_ino = s.last_ino) ∨
        (s.get_by_path path = none ∧ ino = s.last_ino + 1 ∧ s2.last_ino = s.last_ino + 1)) ∧
      inode = Inode.new path (metaToAttr ino metadata s.uid s.gid) ∧
      inode.attr.ino = ino ∧
      s2.inode_map = alistPut s.inode_map ino inode ∧
      s2.ino_trie = alistPut s.ino_trie (path_to_sequence path) ino ∧
      s2.uid = s.uid ∧ s2.gid = s.gid ∧
      (∀ old, alistGet s.inode_map ino = some old → old.path = path) := by
  unfold InodeStore.insert_metadata at h
  cases hgp : s.get_by_path path with
  | some n0 =>
    rw [hgp] at h
    simp only [Option.map_some'] at h
    cases hins : InodeStore.insert s (Inode.new path (metaToAttr n0.attr.ino metadata s.uid s.gid)) with
    | none => rw [hins] at h; exact absurd h (by simp)
    | some s3 =>
      rw [hins] at h
      obtain ⟨hmap, htrie, huid, hgid, hlast, hold⟩ := InodeStore.insert_spec _ _ _ hins
      simp only [Inode_new_attr, Inode_new_path, metaToAttr_ino] at hmap htrie hold
      simp only [Option.some_bind, InodeStore.get, hmap, alistGet_put_self,
        Option.map_some', Option.some.injEq, Prod.mk.injEq] at h
      obtain ⟨hs2, hinode⟩ := h
      subst hs2
      refine ⟨n0.attr.ino, Or.inl ⟨n0, rfl, rfl, hlast⟩, hinode.symm, ?_, ?_, htrie, huid, hgid, hold⟩
      · rw [← hinode, Inode_new_attr, metaToAttr_ino]
      · rw [hmap, ← hinode]
  | none =>
    rw [hgp] at h
    simp only [Option.map_none'] at h
    cases hins : InodeStore.insert { s with last_ino := s.last_ino + 1 }
        (Inode.new path (metaToAttr (s.last_ino + 1) metadata s.uid s.gid)) with
    | none => rw [hins] at h; exact absurd h (by simp)
    | some s3 =>
      rw [hins] at h
      obtain ⟨hmap, htrie, huid, hgid, hlast, hold⟩ := InodeStore.insert_spec _ _ _ hins
      simp only [Inode_new_attr, Inode_new_path, metaToAttr_ino] at hmap htrie hold huid hgid hlast
      simp only [Option.some_bind, InodeStore.get, hmap, alistGet_put_self,
        Option.map_some', Option.some.injEq, Prod.mk.injEq] at h
      obtain ⟨hs2, hinode⟩ := h
      subst hs2
      refine ⟨s.last_ino + 1, Or.inr ⟨rfl, rfl, hlast⟩, hinode.symm, ?_, ?_, htrie, huid, hgid, hold⟩
      · rw [← hinode, Inode_new_attr, metaToAttr_ino]
      · rw [hmap, ← hinode]

theorem InodeStore.remove_spec (s : InodeStore) (ino : Nat) (s2 : InodeStore)
    (h : s.remove ino = some s2) :
    ∃ n, alistGet s.inode_map ino = some n ∧
      s2.inode_map = alistDel s.inode_map ino ∧
      s2.ino_trie = alistDel s.ino_trie (path_to_sequence n.path) ∧
      s2.uid = s.uid ∧ s2.gid = s.gid ∧ s2.last_ino = s.last_ino := by
  unfold InodeStore.remove at h
  cases hm : alistGet s.inode_map ino with
  | none => rw [hm] at h; exact absurd h (by simp)
  | some n =>
    rw [hm] at h
    simp only [Option.some_bind] at h
    split at h
    · simp only [Option.some.injEq] at h
      subst h
      exact ⟨n, rfl, rfl, rfl, rfl, rfl, rfl⟩
    · exact absurd h (by simp)

theorem put_preserves_inv (s s2 : InodeStore) (ino : Nat) (inode : Inode)
    (hinv : StoreInv s)
    (hmap : s2.inode_map = alistPut s.inode_map ino inode)
    (htrie : s2.ino_trie = alistPut s.ino_trie (path_to_sequence inode.path) ino)
    (hino : inode.attr.ino = ino)
    (hsafe : alistGet s.ino_trie (path_to_sequence inode.path) = none ∨
             alistGet s.ino_trie (path_to_sequence inode.path) = some ino)
    (hold : ∀ old, alistGet s.inode_map ino = some old → old.path = inode.path) :
    StoreInv s2 := by
  obtain ⟨⟨dir1, dir2⟩, hkeys⟩ := hinv
  refine ⟨⟨?_, ?_⟩, ?_⟩
  · intro k n hk
    rw [hmap] at hk
    by_cases hki : k = ino
    · subst hki
      rw [alistGet_put_self] at hk
      cases hk
      rw [htrie]
      exact alistGet_put_self _ _ _
    · rw [alistGet_put_ne _ _ _ _ hki] at hk
      have h1 := dir1 k n hk
      have hne : path_to_sequence n.path ≠ path_to_sequence inode.path := by
        intro he
        rw [he] at h1
        cases hsafe with
        | inl h0 => rw [h0] at h1; exact absurd h1 (by simp)
        | inr h0 =>
          rw [h0] at h1
          exact hki (Option.some.inj h1).symm
      rw [htrie, alistGet_put_ne _ _ _ _ hne]
      exact h1
  · intro q j hq
    rw [htrie] at hq
    by_cases hqp : q = path_to_sequence inode.path
    · subst hqp
      rw [alistGet_put_self] at hq
      cases hq
      refine ⟨inode, ?_, rfl⟩
      rw [hmap]
      exact alistGet_put_self _ _ _
    · rw [alistGet_put_ne _ _ _ _ hqp] at hq
      obtain ⟨n, hn, hp⟩ := dir2 q j hq
      have hji : j ≠ ino := by
        intro he
        subst he
        have hnp := hold n hn
        apply hqp
        rw [← hp]
        unfold path_to_sequence
        rw [hnp]
      refine ⟨n, ?_, hp⟩
      rw [hmap, alistGet_put_ne _ _ _ _ hji]
      exact hn
  · intro k n hk
    rw [hmap] at hk
    by_cases hki : k = ino
    · subst hki
      rw [alistGet_put_self] at hk
      cases hk
      exact hino
    · rw [alistGet_put_ne _ _ _ _ hki] at hk
      exact hkeys k n hk

theorem insert_preserves_inv (s : InodeStore) (inode : Inode) (s2 : InodeStore)
    (hinv : StoreInv s)
    (hsafe : alistGet s.ino_trie (path_to_sequence inode.path) = none ∨
             alistGet s.ino_trie (path_to_sequence inode.path) = some inode.attr.ino)
    (h : s.insert inode = some s2) : StoreInv s2 := by
  obtain ⟨hmap, htrie, _, _, _, hold⟩ := InodeStore.insert_spec s inode s2 h
  exact put_preserves_inv s s2 inode.attr.ino inode hinv hmap htrie rfl hsafe hold

theorem insert_metadata_preserves_inv (s : InodeStore) (path : FsPath) (metadata : Metadata)
    (s2 : InodeStore) (inode : Inode)
    (hinv : StoreInv s) (h : s.insert_metadata path metadata = some (s2, inode)) :
    StoreInv s2 := by
  obtain ⟨ino, hbranch, hinode, hino, hmap, htrie, _, _, hold⟩ :=
    InodeStore.insert_metadata_spec s path metadata s2 inode h
  have hpathseq : path_to_sequence inode.path = path_to_sequence path := by
    rw [hinode, Inode_new_path]
  have hsafe : alistGet s.ino_trie (path_to_sequence inode.path) = none ∨
      alistGet s.ino_trie (path_to_sequence inode.path) = some ino := by
    rw [hpathseq]
    cases hbranch with
    | inl hsome =>
      obtain ⟨n0, hn0, hinoeq, _⟩ := hsome
      unfold InodeStore.get_by_path at hn0
      cases ht : alistGet s.ino_trie (path_to_sequence path) with
      | none => rw [ht] at hn0; exact absurd hn0 (by simp)
      | some i0 =>
        rw [ht] at hn0
        simp only [Option.some_bind] at hn0
        have := hinv.2 i0 n0 hn0
        right
        rw [hinoeq, this]
    | inr hnone =>
      obtain ⟨hgp, _, _⟩ := hnone
      unfold InodeStore.get_by_path at hgp
      cases ht : alistGet s.ino_trie (path_to_sequence path) with
      | none => exact Or.inl rfl
      | some i0 =>
        rw [ht] at hgp
        simp only [Option.some_bind] at hgp
        obtain ⟨n1, hn1, _⟩ := hinv.1.2 (path_to_sequence path) i0 ht
        rw [InodeStore.get] at hgp
        rw [hn1] at hgp
        exact absurd hgp (by simp)
  have hold2 : ∀ old, alistGet s.inode_map ino = some old → old.path = inode.path := by
    intro old h0
    rw [hinode, Inode_new_path]
    exact hold old h0
  have htrie2 : s2.ino_trie = alistPut s.ino_trie (path_to_sequence inode.path) ino := by
    rw [hpathseq]
    exact htrie
  exact put_preserves_inv s s2 ino inode hinv hmap htrie2 hino hsafe hold2

theorem remove_preserves_inv (s : InodeStore) (ino : Nat) (s2 : InodeStore)
    (hinv : StoreInv s) (h : s.remove ino = some s2) : StoreInv s2 := by
  obtain ⟨n, hn, hmap, htrie, _, _, _⟩ := InodeStore.remove_spec s ino s2 h
  obtain ⟨⟨dir1, dir2⟩, hkeys⟩ := hinv
  refine ⟨⟨?_, ?_⟩, ?_⟩
  · intro k m hk
    rw [hmap] at hk
    by_cases hki : k = ino
    · subst hki
      rw [alistGet_del_self] at hk
      exact absurd hk (by simp)
    · rw [alistGet_del_ne _ _ _ hki] at hk
      have h1 := dir1 k m hk
      have hne : path_to_sequence m.path ≠ path_to_sequence n.path := by
        intro he
        rw [he] at h1
        have h2 := dir1 ino n hn
        rw [h1] at h2
        exact hki (Option.some.inj h2)
      rw [htrie, alistGet_del_ne _ _ _ hne]
      exact h1
  · intro q j hq
    rw [htrie] at hq
    by_cases hqp : q = path_to_sequence n.path
    · subst hqp
      rw [alistGet_del_self] at hq
      exact absurd hq (by simp)
    · rw [alistGet_del_ne _ _ _ hqp] at hq
      obtain ⟨m, hm, hp⟩ := dir2 q j hq
      have hji : j ≠ ino := by
        intro he
        subst he
        rw [hm] at hn
        cases hn
        exact hqp hp.symm
      refine ⟨m, ?_, hp⟩
      rw [hmap, alistGet_del_ne _ _ _ hji]
      exact hm
  · intro k m hk
    rw [hmap] at hk
    by_cases hki : k = ino
    · subst hki
      rw [alistGet_del_self] at hk
      exact absurd hk (by simp)
    · rw [alistGet_del_ne _ _ _ hki] at hk
      exact hkeys k m hk

theorem storeInv_fresh (perm uid gid : Nat) (now : Timespec) (s : InodeStore)
    (h : InodeStore.new perm uid gid now = some s) : StoreInv s := by
  unfold InodeStore.new at h
  simp only [] at h
  have hempty : StoreInv { inode_map := [], ino_trie := [], uid := uid, gid := gid, last_ino := 1 } := by
    refine ⟨⟨?_, ?_⟩, ?_⟩ <;> intro a b h0 <;> exact absurd h0 (by simp [alistGet])
  exact insert_preserves_inv _ _ _ hempty (Or.inl (by simp [alistGet])) h

theorem reachSafe_inv (s : InodeStore) (h : ReachSafe s) : StoreInv s := by
  induction h with
  | init perm uid gid now s0 h0 => exact storeInv_fresh perm uid gid now s0 h0
  | step s0 s2 op hreach hsafe hstep ih =>
    cases op with
    | insert inode =>
      simp only [StoreOp.step] at hstep
      simp only [StoreOp.safe] at hsafe
      exact insert_preserves_inv s0 inode s2 ih hsafe hstep
    | insert_metadata path metadata =>
      simp only [StoreOp.step] at hstep
      cases hmeta : s0.insert_metadata path metadata with
      | none => rw [hmeta] at hstep; exact absurd hstep (by simp)
      | some r =>
        rw [hmeta] at hstep
        simp only [Option.map_some', Option.some.injEq] at hstep
        subst hstep
        exact insert_metadata_preserves_inv s0 path metadata r.1 r.2 ih hmeta
    | remove ino =>
      simp only [StoreOp.step] at hstep
      exact remove_preserves_inv s0 ino s2 ih hstep

theorem inoBound_fresh (perm uid gid : Nat) (now : Timespec) (s : InodeStore)
    (h : InodeStore.new perm uid gid now = some s) : InoBound s := by
  unfold InodeStore.new at h
  simp only [] at h
  obtain ⟨hmap, _, _, _, hlast, _⟩ := InodeStore.insert_spec _ _ _ h
  intro ino inode h0
  rw [hmap] at h0
  by_cases hki : ino = (Inode.new rootPath (rootAttr perm uid gid now)).attr.ino
  · rw [hlast]
    simp only [Inode_new_attr] at hki
    simp [hki, rootAttr]
  · rw [alistGet_put_ne _ _ _ _ hki] at h0
    exact absurd h0 (by simp [alistGet])

theorem reachMR_inv (s : InodeStore) (h : ReachMR s) : StoreInv s ∧ InoBound s := by
  induction h with
  | init perm uid gid now s0 h0 =>
    exact ⟨storeInv_fresh perm uid gid now s0 h0, inoBound_fresh perm uid gid now s0 h0⟩
  | stepMeta s0 s2 path metadata inode hreach hstep ih =>
    refine ⟨insert_metadata_preserves_inv s0 path metadata s2 inode ih.1 hstep, ?_⟩
    obtain ⟨ino, hbranch, _, _, hmap, _, _, _, _⟩ :=
      InodeStore.insert_metadata_spec s0 path metadata s2 inode hstep
    have hbound : ino ≤ s2.last_ino ∧ s0.last_ino ≤ s2.last_ino := by
      cases hbranch with
      | inl hsome =>
        obtain ⟨n0, hn0, hinoeq, hlast⟩ := hsome
        unfold InodeStore.get_by_path at hn0
        cases ht : alistGet s0.ino_trie (path_to_sequence path) with
        | none => rw [ht] at hn0; exact absurd hn0 (by simp)
        | some i0 =>
          rw [ht] at hn0
          simp only [Option.some_bind, InodeStore.get] at hn0
          have hkey := ih.1.2 i0 n0 hn0
          have hb := ih.2 i0 n0 hn0
          rw [hlast, hinoeq, hkey]
          exact ⟨hb, le_refl _⟩
      | inr hnone =>
        obtain ⟨_, hinoeq, hlast⟩ := hnone
        rw [hlast, hinoeq]
        exact ⟨le_refl _, Nat.le_succ _⟩
    intro k n hk
    rw [hmap] at hk
    by_cases hki : k = ino
    · subst hki
      exact hbound.1
    · rw [alistGet_put_ne _ _ _ _ hki] at hk
      exact le_trans (ih.2 k n hk) hbound.2
  | stepRemove s0 s2 ino hreach hstep ih =>
    obtain ⟨n, hn, hmap, _, _, _, hlast⟩ := InodeStore.remove_spec s0 ino s2 hstep
    refine ⟨remove_preserves_inv s0 ino s2 ih.1 hstep, ?_⟩
    intro k m hk
    rw [hmap] at hk
    by_cases hki : k = ino
    · subst hki
      rw [alistGet_del_self] at hk
      exact absurd hk (by simp)
    · rw [alistGet_del_ne _ _ _ hki] at hk
      rw [hlast]
      exact ih.2 k m hk

theorem reachMR_last_pos (s : InodeStore) (h : ReachMR s) : 1 ≤ s.last_ino := by
  induction h with
  | init perm uid gid now s0 h0 =>
    unfold InodeStore.new at h0
    simp only [] at h0
    obtain ⟨_, _, _, _, hlast, _⟩ := InodeStore.insert_spec _ _ _ h0
    rw [hlast]
  | stepMeta s0 s2 path metadata inode hreach hstep ih =>
    obtain ⟨ino, hbranch, _, _, _, _, _, _, _⟩ :=
      InodeStore.insert_metadata_spec s0 path metadata s2 inode hstep
    cases hbranch with
    | inl hsome =>
      obtain ⟨n0, _, _, hlast⟩ := hsome
      rw [hlast]
      exact ih
    | inr hnone =>
      obtain ⟨_, _, hlast⟩ := hnone
      rw [hlast]
      omega
  | stepRemove s0 s2 ino hreach hstep ih =>
    obtain ⟨_, _, _, _, _, _, hlast⟩ := InodeStore.remove_spec s0 ino s2 hstep
    rw [hlast]
    exact ih

/-- Claim C2: for every sequence of insert_metadata and remove operations
from a fresh mount, insert_metadata allocates a fresh path its ino from the
monotone counter (last_ino + 1, starting at 2 because a fresh store has
last_ino = 1), reuses the existing ino for a present path, every bound ino
stays at or below the counter, the counter never decreases, and no step ever
changes the path bound to a live ino — so an ino is never reassigned to a
different path, even after remove. -/
theorem claim_C2 :
    (∀ perm uid gid now s0, InodeStore.new perm uid gid now = some s0 → s0.last_ino = 1)
  ∧ (∀ s path metadata s2 inode, ReachMR s → s.get_by_path path = none →
        s.insert_metadata path metadata = some (s2, inode) →
        inode.attr.ino = s.last_ino + 1 ∧ s2.last_ino = s.last_ino + 1 ∧
        2 ≤ inode.attr.ino ∧ alistGet s.inode_map inode.attr.ino = none)
  ∧ (∀ s path metadata s2 inode n0, ReachMR s → s.get_by_path path = some n0 →
        s.insert_metadata path metadata = some (s2, inode) →
        inode.attr.ino = n0.attr.ino ∧ s2.last_ino = s.last_ino)
  ∧ (∀ s ino inode, ReachMR s → alistGet s.inode_map ino = some inode → ino ≤ s.last_ino)
  ∧ (∀ s path metadata s2 inode, ReachMR s →
        s.insert_metadata path metadata = some (s2, inode) →
        s.last_ino ≤ s2.last_ino ∧
        ∀ k n n2, alistGet s.inode_map k = some n → alistGet s2.inode_map k = some n2 →
          n2.path = n.path)
  ∧ (∀ s ino s2, ReachMR s → s.remove ino = some s2 →
        s.last_ino ≤ s2.last_ino ∧
        ∀ k n n2, alistGet s.inode_map k = some n → alistGet s2.inode_map k = some n2 →
          n2.path = n.path) := by
  refine ⟨?_, ?_, ?_, ?_, ?_, ?_⟩
  · intro perm uid gid now s0 h
    unfold InodeStore.new at h
    simp only [] at h
    obtain ⟨_, _, _, _, hlast, _⟩ := InodeStore.insert_spec _ _ _ h
    exact hlast
  · intro s path metadata s2 inode hreach hgp h
    obtain ⟨ino, hbranch, hinode, hino, hmap, _, _, _, _⟩ :=
      InodeStore.insert_metadata_spec s path metadata s2 inode h
    cases hbranch with
    | inl hsome =>
      obtain ⟨n0, hn0, _, _⟩ := hsome
      rw [hgp] at hn0
      exact absurd hn0 (by simp)
    | inr hnone =>
      obtain ⟨_, hinoeq, hlast⟩ := hnone
      have hpos := reachMR_last_pos s hreach
      refine ⟨by rw [hino, hinoeq], hlast, by rw [hino, hinoeq]; omega, ?_⟩
      cases hm : alistGet s.inode_map inode.attr.ino with
      | none => rfl
      | some n =>
        have hb := (reachMR_inv s hreach).2 inode.attr.ino n hm
        rw [hino, hinoeq] at hb
        omega
  · intro s path metadata s2 inode n0 hreach hgp h
    obtain ⟨ino, hbranch, hinode, hino, _, _, _, _, _⟩ :=
      InodeStore.insert_metadata_spec s path metadata s2 inode h
    cases hbranch with
    | inl hsome =>
      obtain ⟨n1, hn1, hinoeq, hlast⟩ := hsome
      rw [hgp] at hn1
      cases hn1
      exact ⟨by rw [hino, hinoeq], hlast⟩
    | inr hnone =>
      obtain ⟨hgp2, _, _⟩ := hnone
      rw [hgp] at hgp2
      exact absurd hgp2 (by simp)
  · intro s ino inode hreach hm
    exact (reachMR_inv s hreach).2 ino inode hm
  · intro s path metadata s2 inode hreach h
    obtain ⟨ino, hbranch, hinode, hino, hmap, _, _, _, hold⟩ :=
      InodeStore.insert_metadata_spec s path metadata s2 inode h
    constructor
    · cases hbranch with
      | inl hsome =>
        obtain ⟨n0, _, _, hlast⟩ := hsome
        rw [hlast]
      | inr hnone =>
        obtain ⟨_, _, hlast⟩ := hnone
        rw [hlast]
        omega
    · intro k n n2 hk hk2
      rw [hmap] at hk2
      by_cases hki : k = ino
      · subst hki
        rw [alistGet_put_self] at hk2
        cases hk2
        rw [hinode, Inode_new_path]
        exact (hold n hk).symm
      · rw [alistGet_put_ne _ _ _ _ hki] at hk2
        rw [hk] at hk2
        cases hk2
        rfl
  · intro s ino s2 hreach h
    obtain ⟨n, hn, hmap, _, _, _, hlast⟩ := InodeStore.remove_spec s ino s2 h
    refine ⟨by rw [hlast], ?_⟩
    intro k m m2 hk hk2
    rw [hmap] at hk2
    by_cases hki : k = ino
    · subst hki
      rw [alistGet_del_self] at hk2
      exact absurd hk2 (by simp)
    · rw [alistGet_del_ne _ _ _ hki] at hk2
      rw [hk] at hk2
      cases hk2
      rfl

/-- Witness for C2: on the fresh store, registering the new path "/a"
allocates ino 2 = last_ino + 1, bumps the counter to 2, and 2 was not
previously bound. -/
theorem claim_C2_witness :
    c2Inode.attr.ino = freshStoreEx.last_ino + 1 ∧ c2Store.last_ino = freshStoreEx.last_ino + 1 ∧
    2 ≤ c2Inode.attr.ino ∧ alistGet freshStoreEx.inode_map c2Inode.attr.ino = none :=
  claim_C2.2.1 freshStoreEx [[47], [97]] (metaFile 5) c2Store c2Inode
    (ReachMR.init 360 1000 1000 tsZero freshStoreEx rfl) rfl rfl

/-- Claim C9 (amended): bidirectional agreement of the inode map and the path
trie holds for every state reachable by insert, insert_metadata and remove in
which no raw insert rebinds a path already mapped to a different ino. -/
theorem claim_C9 (s : InodeStore) (h : ReachSafe s) : MapTrieAgree s :=
  (reachSafe_inv s h).1

/-- Witness for C9: on the fresh store the root path resolves back to ino 1. -/
theorem claim_C9_witness :
    alistGet freshStoreEx.ino_trie
      (path_to_sequence (Inode.new rootPath (rootAttr 360 1000 1000 tsZero)).path) = some 1 := by
  have h := claim_C9 freshStoreEx (ReachSafe.init 360 1000 1000 tsZero freshStoreEx rfl)
  exact h.1 1 (Inode.new rootPath (rootAttr 360 1000 1000 tsZero)) (by rfl)

/-- Counterexample for C9 as stated: inserting "/a" as ino 2 and then
inserting "/a" again as ino 3 is a sequence of store operations the source
accepts without aborting, yet afterwards ino 2 still holds path "/a" while
the trie resolves "/a" to 3, so the maps do not agree bidirectionally. -/
theorem claim_C9_counterexample :
    runOps freshStoreEx c9Ops = some c9Store ∧ ¬ MapTrieAgree c9Store := by
  refine ⟨by rfl, ?_⟩
  intro h
  have h2 := h.1 2 c9Inode2 (by decide)
  exact absurd h2 (by decide)

/-- Claim C5 (amended): the inode store itself preserves any path — including
non-UTF-8 components — through insert_metadata and retrieval. -/
theorem claim_C5 (s : InodeStore) (path : FsPath) (metadata : Metadata)
    (s2 : InodeStore) (inode : Inode)
    (h : s.insert_metadata path metadata = some (s2, inode)) :
    inode.path = path ∧ s2.get_by_path path = some inode := by
  obtain ⟨ino, _, hinode, hino, hmap, htrie, _, _, _⟩ :=
    InodeStore.insert_metadata_spec s path metadata s2 inode h
  constructor
  · rw [hinode, Inode_new_path]
  · unfold InodeStore.get_by_path
    rw [htrie, alistGet_put_self]
    simp only [Option.some_bind]
    rw [InodeStore.get, hmap, alistGet_put_self]

/-- Witness for C5: a path whose component is the non-UTF-8 byte 0xFF
survives the store round trip unchanged. -/
theorem claim_C5_witness :
    c5Inode.path = [[47], [255]] ∧ c5StoreAfter.get_by_path [[47], [255]] = some c5Inode :=
  claim_C5 freshStoreEx [[47], [255]] (metaFile 0) c5StoreAfter c5Inode rfl

/-- Counterexample for C5 as stated: registering the name 0xFF through the
dispatcher lookup stores the to_string_lossy image (the replacement
character EF BF BD), not the original byte, and the store cannot retrieve
the child under its original name. -/
theorem claim_C5_counterexample :
    ((NetFuse.lookup netFreshState (Except.ok (metaFile 0)) 1 [255]).bind
        fun r => (r.1.inodes.get 2).map (·.path)) = some [[47], [239, 191, 189]] ∧
    [[47], [239, 191, 189]] ≠ ([[47], [255]] : FsPath) ∧
    ((NetFuse.lookup netFreshState (Except.ok (metaFile 0)) 1 [255]).bind
        fun r => r.1.inodes.child 1 [255]) = none := by
  refine ⟨by decide, by decide, by decide⟩

theorem flush_clean (st : NetFuseState) (bw : Except Int Unit) (ino : Nat) (entry : CacheEntry)
    (hentry : alistGet st.cache ino = some entry)
    (hc : (entry.warm && !entry.sync) = false) :
    NetFuse.flush_cache_if_needed st bw ino = some (st, .ok false, 0) := by
  unfold NetFuse.flush_cache_if_needed
  rw [hentry]
  simp only [Option.some_bind]
  rw [if_neg (by simp [hc])]

theorem flush_dirty_err (st : NetFuseState) (ino : Nat) (entry : CacheEntry) (inode : Inode)
    (e : Int)
    (hentry : alistGet st.cache ino = some entry)
    (hc : (entry.warm && !entry.sync) = true)
    (hino : st.inodes.get ino = some inode) :
    NetFuse.flush_cache_if_needed st (.error e) ino = some (st, .error e, 1) := by
  unfold NetFuse.flush_cache_if_needed
  rw [hentry]
  simp only [Option.some_bind]
  rw [if_pos hc, hino]
  simp only [Option.some_bind]

theorem flush_dirty_ok (st : NetFuseState) (ino : Nat) (entry : CacheEntry) (inode : Inode)
    (u : Unit)
    (hentry : alistGet st.cache ino = some entry)
    (hc : (entry.warm && !entry.sync) = true)
    (hino : st.inodes.get ino = some inode) :
    NetFuse.flush_cache_if_needed st (.ok u) ino =
      some ({ st with cache := alistPut st.cache ino { entry with sync := true } },
            .ok true, 1) := by
  unfold NetFuse.flush_cache_if_needed
  rw [hentry]
  simp only [Option.some_bind]
  rw [if_pos hc, hino]
  simp only [Option.some_bind]

theorem flush_inv (st : NetFuseState) (bw : Except Int Unit) (ino : Nat)
    (st2 : NetFuseState) (r : Except Int Bool) (w : Nat)
    (h : NetFuse.flush_cache_if_needed st bw ino = some (st2, r, w)) :
    ∃ entry, alistGet st.cache ino = some entry ∧
      (((entry.warm && !entry.sync) = false ∧ st2 = st ∧ r = .ok false ∧ w = 0) ∨
       ((entry.warm && !entry.sync) = true ∧ w = 1 ∧
         ((∃ e, bw = .error e ∧ st2 = st ∧ r = .error e) ∨
          (∃ u, bw = .ok u ∧ r = .ok true ∧
             st2 = { st with cache := alistPut st.cache ino { entry with sync := true } })))) := by
  unfold NetFuse.flush_cache_if_needed at h
  cases hentry : alistGet st.cache ino with
  | none => rw [hentry] at h; exact absurd h (by simp)
  | some entry =>
    rw [hentry] at h
    simp only [Option.some_bind] at h
    by_cases hc : (entry.warm && !entry.sync) = true
    · rw [if_pos hc] at h
      cases hino : st.inodes.get ino with
      | none => rw [hino] at h; exact absurd h (by simp)
      | some inode =>
        rw [hino] at h
        simp only [Option.some_bind] at h
        cases bw with
        | error e =>
          simp only [Option.some.injEq, Prod.mk.injEq] at h
          obtain ⟨h1, h2, h3⟩ := h
          exact ⟨entry, rfl, Or.inr ⟨hc, h3.symm, Or.inl ⟨e, rfl, h1.symm, h2.symm⟩⟩⟩
        | ok u =>
          simp only [Option.some.injEq, Prod.mk.injEq] at h
          obtain ⟨h1, h2, h3⟩ := h
          exact ⟨entry, rfl, Or.inr ⟨hc, h3.symm, Or.inr ⟨u, rfl, h2.symm, h1.symm⟩⟩⟩
    · rw [if_neg hc] at h
      simp only [Option.some.injEq, Prod.mk.injEq] at h
      obtain ⟨h1, h2, h3⟩ := h
      refine ⟨entry, rfl, Or.inl ⟨?_, h1.symm, h2.symm, h3.symm⟩⟩
      simp only [Bool.not_eq_true] at hc
      exact hc

theorem release_spec (st : NetFuseState) (bw : Except Int Unit) (ino : Nat)
    (entry : CacheEntry) (inode : Inode)
    (hentry : alistGet st.cache ino = some entry)
    (hh : 1 ≤ entry.handles)
    (hino : st.inodes.get ino = some inode) :
    ∃ st3,
      NetFuse.release st bw ino =
        some (st3, EmptyReply.ok,
          if entry.handles - 1 = 0 ∧ entry.warm = true ∧ entry.sync = false then 1 else 0) ∧
      (∀ e2, alistGet st3.cache ino = some e2 → e2.handles = entry.handles - 1) ∧
      (alistGet st3.cache ino = none ↔
        entry.handles - 1 = 0 ∧
          ((if entry.handles - 1 = 0 ∧ entry.warm = true ∧ entry.sync = false ∧ bw = Except.ok ()
            then true else entry.sync) = true ∨ entry.warm = false)) := by
  have hrel : entry.released = some ({ entry with handles := entry.handles - 1 }, entry.handles - 1) := by
    unfold CacheEntry.released
    cases hh2 : entry.handles with
    | zero => omega
    | succ n => simp
  unfold NetFuse.release
  rw [hentry]
  simp only [Option.some_bind]
  rw [hrel]
  simp only [Option.some_bind]
  have hentry1 : alistGet (alistPut st.cache ino { entry with handles := entry.handles - 1 }) ino
      = some { entry with handles := entry.handles - 1 } := alistGet_put_self _ _ _
  by_cases hz : entry.handles - 1 = 0
  · rw [if_pos hz]
    by_cases hw : (entry.warm && !entry.sync) = true
    · have hw2 := hw
      simp only [Bool.and_eq_true, Bool.not_eq_true'] at hw2
      obtain ⟨hwT, hsF⟩ := hw2
      cases bw with
      | error e =>
        rw [flush_dirty_err { st with cache := alistPut st.cache ino { entry with handles := entry.handles - 1 } } ino { entry with handles := entry.handles - 1 } inode e hentry1 hw hino]
        simp only [Option.map_some', Option.some_bind]
        rw [hentry1]
        simp only [Option.some_bind]
        rw [if_neg (by
          intro hcon
          rcases hcon with ⟨_, hdisj⟩
          cases hdisj with
          | inl hsync => rw [hsF] at hsync; exact absurd hsync (by simp)
          | inr hwarm => rw [hwT] at hwarm; exact absurd hwarm (by simp))]
        refine ⟨{ st with cache := alistPut st.cache ino { entry with handles := entry.handles - 1 } }, ?_, ?_, ?_⟩
        · rw [if_pos ⟨hz, hwT, hsF⟩]
        · intro e2 he2
          dsimp only [] at he2
          rw [hentry1] at he2
          cases he2
          rfl
        · dsimp only []
          rw [hentry1]
          constructor
          · intro hnone
            exact absurd hnone (by simp)
          · intro hcon
            rcases hcon with ⟨_, hdisj⟩
            simp only [hsF, hwT] at hdisj
            rcases hdisj with hdisj | hdisj
            · revert hdisj
              rw [if_neg (by rintro ⟨_, _, _, hok⟩; exact absurd hok (by simp))]
              simp
            · exact absurd hdisj (by simp)
      | ok u =>
        cases u
        rw [flush_dirty_ok { st with cache := alistPut st.cache ino { entry with handles := entry.handles - 1 } } ino { entry with handles := entry.handles - 1 } inode () hentry1 hw hino]
        simp only [Option.map_some', Option.some_bind]
        rw [alistGet_put_self]
        simp only [Option.some_bind]
        rw [if_pos (show entry.handles - 1 = 0 ∧ (True ∨ entry.warm = false)
          from ⟨hz, Or.inl trivial⟩)]
        refine ⟨{ st with cache := (alistDel (alistPut (alistPut st.cache ino { entry with handles := entry.handles - 1 }) ino { entry with handles := entry.handles - 1, sync := true }) ino) }, ?_, ?_, ?_⟩
        · rw [if_pos ⟨hz, hwT, hsF⟩]
        · intro e2 he2
          dsimp only [] at he2
          rw [alistGet_del_self] at he2
          exact absurd he2 (by simp)
        · dsimp only []
          rw [alistGet_del_self]
          constructor
          · intro _
            refine ⟨hz, Or.inl ?_⟩
            rw [if_pos ⟨hz, hwT, hsF, trivial⟩]
          · intro _
            rfl
    · have hwF : (entry.warm && !entry.sync) = false := by
        simp only [Bool.not_eq_true] at hw
        exact hw
      have hdisj : entry.sync = true ∨ entry.warm = false := by
        cases hwv : entry.warm <;> cases hsv : entry.sync <;> simp_all
      rw [flush_clean { st with cache := alistPut st.cache ino { entry with handles := entry.handles - 1 } } bw ino { entry with handles := entry.handles - 1 } hentry1 hwF]
      simp only [Option.map_some', Option.some_bind]
      rw [hentry1]
      simp only [Option.some_bind]
      rw [if_pos (show entry.handles - 1 = 0 ∧
          (({ entry with handles := entry.handles - 1 } : CacheEntry).sync = true ∨
           ({ entry with handles := entry.handles - 1 } : CacheEntry).warm = false)
        from ⟨hz, hdisj⟩)]
      refine ⟨{ st with cache := (alistDel (alistPut st.cache ino { entry with handles := entry.handles - 1 }) ino) }, ?_, ?_, ?_⟩
      · rw [if_neg (by
          rintro ⟨_, hwT, hsF⟩
          rw [hwT, hsF] at hwF
          exact absurd hwF (by simp))]
      · intro e2 he2
        dsimp only [] at he2
        rw [alistGet_del_self] at he2
        exact absurd he2 (by simp)
      · dsimp only []
        rw [alistGet_del_self]
        constructor
        · intro _
          refine ⟨hz, ?_⟩
          rcases hdisj with hs | hw2
          · left
            rw [hs]
            simp
          · exact Or.inr hw2
        · intro _
          rfl
  · rw [if_neg hz]
    simp only [Option.some_bind]
    rw [hentry1]
    simp only [Option.some_bind]
    rw [if_neg (by rintro ⟨h0, _⟩; exact hz h0)]
    refine ⟨{ st with cache := alistPut st.cache ino { entry with handles := entry.handles - 1 } }, ?_, ?_, ?_⟩
    · rw [if_neg (by rintro ⟨h0, _, _⟩; exact hz h0)]
    · intro e2 he2
      dsimp only [] at he2
      rw [hentry1] at he2
      cases he2
      rfl
    · dsimp only []
      rw [hentry1]
      constructor
      · intro hnone
        exact absurd hnone (by simp)
      · rintro ⟨h0, _⟩
        exact absurd h0 hz

theorem fsync_sync_entry (st : NetFuseState) (bw : Except Int Unit) (ino : Nat)
    (entry : CacheEntry)
    (hentry : alistGet st.cache ino = some entry) (hsync : entry.sync = true) :
    NetFuse.fsync st bw ino = some (st, EmptyReply.ok, 0) := by
  unfold NetFuse.fsync
  rw [flush_clean st bw ino entry hentry (by rw [hsync]; simp)]
  rfl

theorem fsync_some (st : NetFuseState) (bw : Except Int Unit) (ino : Nat)
    (entry : CacheEntry) (inode : Inode)
    (hentry : alistGet st.cache ino = some entry)
    (hino : st.inodes.get ino = some inode) :
    (NetFuse.fsync st bw ino).isSome = true := by
  unfold NetFuse.fsync
  by_cases hc : (entry.warm && !entry.sync) = true
  · cases bw with
    | error e => rw [flush_dirty_err st ino entry inode e hentry hc hino]; rfl
    | ok u => rw [flush_dirty_ok st ino entry inode u hentry hc hino]; rfl
  · rw [flush_clean st bw ino entry hentry (by simp only [Bool.not_eq_true] at hc; exact hc)]
    rfl

theorem fsync_writes_le_one (st : NetFuseState) (bw : Except Int Unit) (ino : Nat)
    (st2 : NetFuseState) (r : EmptyReply) (w : Nat)
    (h : NetFuse.fsync st bw ino = some (st2, r, w)) : w ≤ 1 := by
  unfold NetFuse.fsync at h
  rw [Option.map_eq_some'] at h
  obtain ⟨res, hflush, hres⟩ := h
  obtain ⟨e0, _, hcase⟩ := flush_inv st bw ino res.1 res.2.1 res.2.2 (by rw [hflush])
  have hw : res.2.2 ≤ 1 := by
    cases hcase with
    | inl h0 => rw [h0.2.2.2]; omega
    | inr h0 => rw [h0.2.1]
  cases hr2 : res.2.1 with
  | ok b =>
    rw [hr2] at hres
    simp only [Prod.mk.injEq] at hres
    rw [← hres.2.2]
    exact hw
  | error e =>
    rw [hr2] at hres
    simp only [Prod.mk.injEq] at hres
    rw [← hres.2.2]
    exact hw

/-- Claim C7: on release of a live cache entry (at least one open handle,
inode registered), the handle count is decremented; when the new count is
zero a backend write is issued exactly when the entry was warm and not sync,
its failure does not change the reply; the entry is dropped from the cache
iff the new count is zero and sync-or-not-warm holds after the flush attempt
(sync having been set by a successful flush); and the reply is always ok. -/
theorem claim_C7 (st : NetFuseState) (bw : Except Int Unit) (ino : Nat)
    (entry : CacheEntry) (inode : Inode)
    (hentry : alistGet st.cache ino = some entry)
    (hh : 1 ≤ entry.handles)
    (hino : st.inodes.get ino = some inode) :
    ∃ st3,
      NetFuse.release st bw ino =
        some (st3, EmptyReply.ok,
          if entry.handles - 1 = 0 ∧ entry.warm = true ∧ entry.sync = false then 1 else 0) ∧
      (∀ e2, alistGet st3.cache ino = some e2 → e2.handles = entry.handles - 1) ∧
      (alistGet st3.cache ino = none ↔
        entry.handles - 1 = 0 ∧
          ((if entry.handles - 1 = 0 ∧ entry.warm = true ∧ entry.sync = false ∧ bw = Except.ok ()
            then true else entry.sync) = true ∨ entry.warm = false)) :=
  release_spec st bw ino entry inode hentry hh hino

/-- Witness for C7: final release of a dirty entry under a succeeding
backend replies ok, issues one backend write, and drops the entry. -/
theorem claim_C7_witness :
    ((NetFuse.release c7State (Except.ok ()) 2).map fun r => (r.2.1, r.2.2)) =
      some (EmptyReply.ok, 1) ∧
    ((NetFuse.release c7State (Except.ok ()) 2).map fun r => alistGet r.1.cache 2) =
      some none := by
  obtain ⟨st3, h1, h2, h3⟩ := claim_C7 c7State (Except.ok ()) 2
    { data := [7], warm := true, sync := false, handles := 1 } c7Inode rfl (by decide) rfl
  rw [h1]
  constructor
  · simp
  · simp only [Option.map_some', Option.some.injEq]
    exact h3.mpr (by decide)

/-- Claim C10: release and fsync presuppose a cache entry: with no entry the
dispatcher aborts on unwrap instead of replying an errno, and release with
zero handles aborts on the unsigned decrement; with a live entry, at least
one handle and a registered inode, release and fsync complete. -/
theorem claim_C10 :
    (∀ st bw ino, alistGet st.cache ino = none → NetFuse.release st bw ino = none)
  ∧ (∀ st bw ino, alistGet st.cache ino = none → NetFuse.fsync st bw ino = none)
  ∧ (∀ st bw ino entry, alistGet st.cache ino = some entry → entry.handles = 0 →
        NetFuse.release st bw ino = none)
  ∧ (∀ st bw ino entry inode, alistGet st.cache ino = some entry → 1 ≤ entry.handles →
        st.inodes.get ino = some inode → (NetFuse.release st bw ino).isSome = true)
  ∧ (∀ st bw ino entry inode, alistGet st.cache ino = some entry →
        st.inodes.get ino = some inode → (NetFuse.fsync st bw ino).isSome = true) := by
  refine ⟨?_, ?_, ?_, ?_, ?_⟩
  · intro st bw ino h
    unfold NetFuse.release
    rw [h]
    rfl
  · intro st bw ino h
    unfold NetFuse.fsync NetFuse.flush_cache_if_needed
    rw [h]
    rfl
  · intro st bw ino entry hentry hz
    unfold NetFuse.release
    rw [hentry]
    simp only [Option.some_bind]
    have hrel : entry.released = none := by
      unfold CacheEntry.released
      rw [hz]
    rw [hrel]
    rfl
  · intro st bw ino entry inode hentry hh hino
    obtain ⟨st3, h1, _, _⟩ := release_spec st bw ino entry inode hentry hh hino
    rw [h1]
    rfl
  · intro st bw ino entry inode hentry hino
    exact fsync_some st bw ino entry inode hentry hino

/-- Witness for C10: concrete aborts on a fresh mount with an empty cache and
on a zero-handle entry; concrete completion on live entries. -/
theorem claim_C10_witness :
    NetFuse.release netFreshState (Except.ok ()) 2 = none ∧
    NetFuse.fsync netFreshState (Except.ok ()) 2 = none ∧
    NetFuse.release c10ZeroState (Except.ok ()) 2 = none ∧
    (NetFuse.release c7State (Except.ok ()) 2).isSome = true ∧
    (NetFuse.fsync c8State (Except.ok ()) 2).isSome = true :=
  ⟨claim_C10.1 netFreshState (Except.ok ()) 2 rfl,
   claim_C10.2.1 netFreshState (Except.ok ()) 2 rfl,
   claim_C10.2.2.1 c10ZeroState (Except.ok ()) 2
     { data := [1], warm := true, sync := false, handles := 0 } rfl rfl,
   claim_C10.2.2.2.1 c7State (Except.ok ()) 2
     { data := [7], warm := true, sync := false, handles := 1 } c7Inode rfl (by decide) rfl,
   claim_C10.2.2.2.2 c8State (Except.ok ()) 2
     { data := [1], warm := true, sync := false, handles := 1 } c7Inode rfl rfl⟩

/-- Claim C8 (amended): an entry in sync makes fsync issue no backend write
and reply ok with the state unchanged; and when the first of two successive
fsyncs replies ok, the two calls issue at most one backend write in total.
(When the first flush fails the entry stays out of sync and a second fsync
issues a second backend write.) -/
theorem claim_C8 :
    (∀ st bw ino entry, alistGet st.cache ino = some entry → entry.sync = true →
        NetFuse.fsync st bw ino = some (st, EmptyReply.ok, 0))
  ∧ (∀ st bw bw2 ino st1 w1 st2 r2 w2,
        NetFuse.fsync st bw ino = some (st1, EmptyReply.ok, w1) →
        NetFuse.fsync st1 bw2 ino = some (st2, r2, w2) →
        w1 + w2 ≤ 1) := by
  constructor
  · intro st bw ino entry hentry hsync
    exact fsync_sync_entry st bw ino entry hentry hsync
  · intro st bw bw2 ino st1 w1 st2 r2 w2 h1 h2
    unfold NetFuse.fsync at h1
    rw [Option.map_eq_some'] at h1
    obtain ⟨res, hflush, hres⟩ := h1
    obtain ⟨e0, he0, hcase⟩ := flush_inv st bw ino res.1 res.2.1 res.2.2 (by rw [hflush])
    cases hcase with
    | inl hclean =>
      obtain ⟨hc, hst, hr, hw⟩ := hclean
      cases hr2 : res.2.1 with
      | ok b =>
        rw [hr2] at hres
        simp only [Prod.mk.injEq] at hres
        have hw1 : w1 = 0 := by rw [← hres.2.2, hw]
        have := fsync_writes_le_one st1 bw2 ino st2 r2 w2 h2
        omega
      | error e =>
        rw [hr2] at hres
        simp only [Prod.mk.injEq] at hres
        exact absurd hres.2.1 (by simp)
    | inr hdirty =>
      obtain ⟨hc, hw, hsub⟩ := hdirty
      cases hsub with
      | inl herr =>
        obtain ⟨e, _, _, hr⟩ := herr
        rw [hr] at hres
        simp only [Prod.mk.injEq] at hres
        exact absurd hres.2.1 (by simp)
      | inr hok =>
        obtain ⟨u, _, hr, hst2⟩ := hok
        rw [hr] at hres
        simp only [Prod.mk.injEq] at hres
        have hw1 : w1 = 1 := by rw [← hres.2.2, hw]
        have hst1 : st1 = { st with cache := alistPut st.cache ino { e0 with sync := true } } := by
          rw [← hres.1, hst2]
        have hsecond := fsync_sync_entry st1 bw2 ino { e0 with sync := true }
          (by rw [hst1]; exact alistGet_put_self _ _ _) rfl
        rw [hsecond] at h2
        simp only [Option.some.injEq, Prod.mk.injEq] at h2
        have hw2 : w2 = 0 := h2.2.2.symm
        omega

/-- Witness for C8: fsync of an in-sync entry issues no write and replies
ok; two fsyncs whose first succeeds issue exactly one write in total. -/
theorem claim_C8_witness :
    NetFuse.fsync c6State (Except.ok ()) 2 = some (c6State, EmptyReply.ok, 0) ∧ 1 + 0 ≤ 1 := by
  refine ⟨claim_C8.1 c6State (Except.ok ()) 2
    { data := [1, 2, 3], warm := true, sync := true, handles := 1 } rfl rfl, ?_⟩
  exact claim_C8.2 c8State (Except.ok ()) (Except.ok ()) 2 c8After1 1 c8After1 EmptyReply.ok 0
    (by decide) (by decide)

/-- Counterexample for C8 as stated: with a backend whose write fails, the
first fsync replies EIO and leaves the entry dirty, so the second fsync
issues a second backend write: two in total, not at most one. -/
theorem claim_C8_counterexample :
    ((NetFuse.fsync c8State (Except.error 5) 2).map fun r => (r.2.1, r.2.2)) =
      some (EmptyReply.error eioErr, 1) ∧
    ((NetFuse.fsync c8State (Except.error 5) 2).bind fun r =>
        (NetFuse.fsync r.1 (Except.error 5) 2).map fun r2 => r.2.2 + r2.2.2) = some 2 := by
  refine ⟨by decide, by decide⟩

/-- Claim C6: once the cache is warmed (no warming error), a read at offset
at or past the buffer length replies ENOENT, and a read inside the buffer
replies exactly data from offset to the smaller of offset + size and the
buffer length, with no error — a short tail is served, not an error. -/
theorem claim_C6 (st : NetFuseState) (backendRead : Except Int (List Nat))
    (ino offset size : Nat) (st2 : NetFuseState) (flag : Bool) (entry : CacheEntry)
    (hwarm : NetFuse.read_to_cache_if_needed st backendRead ino = some (st2, Except.ok flag))
    (hentry : alistGet st2.cache ino = some entry) :
    (entry.data.length ≤ offset →
        NetFuse.read st backendRead ino offset size = some (st2, .error ENOENT)) ∧
    (offset < entry.data.length →
        NetFuse.read st backendRead ino offset size =
          some (st2, .data ((entry.data.take (min (offset + size) entry.data.length)).drop offset))) := by
  unfold NetFuse.read
  rw [hwarm]
  simp only [Option.some_bind]
  rw [hentry]
  simp only [Option.some_bind]
  constructor
  · intro h
    rw [if_neg (by omega), if_neg (by omega)]
  · intro h
    by_cases hbig : entry.data.length > offset + size
    · rw [if_pos hbig]
      have hmin : min (offset + size) entry.data.length = offset + size :=
        Nat.min_eq_left (by omega)
      rw [hmin, List.drop_take, Nat.add_sub_cancel_left]
    · rw [if_neg hbig, if_pos (by omega)]
      have hmin : min (offset + size) entry.data.length = entry.data.length :=
        Nat.min_eq_right (by omega)
      rw [hmin, List.take_length]

/-- Witness for C6: on a warm three-byte entry, reading at offset 5 replies
ENOENT and reading one byte at offset 1 replies that byte. -/
theorem claim_C6_witness :
    NetFuse.read c6State (Except.ok []) 2 5 1 = some (c6State, DataReply.error ENOENT) ∧
    NetFuse.read c6State (Except.ok []) 2 1 1 =
      some (c6State, DataReply.data ((([1, 2, 3] : List Nat).take
        (min (1 + 1) ([1, 2, 3] : List Nat).length)).drop 1)) := by
  constructor
  · exact (claim_C6 c6State (Except.ok []) 2 5 1 c6State false
      { data := [1, 2, 3], warm := true, sync := true, handles := 1 } rfl rfl).1 (by decide)
  · exact (claim_C6 c6State (Except.ok []) 2 1 1 c6State false
      { data := [1, 2, 3], warm := true, sync := true, handles := 1 } rfl rfl).2 (by decide)

/-- Claim C4 (amended): when the child is not cached and the parent is not
visited, a backend lookup failure is reported as ENOENT regardless of the
backend errno — lookup normalises backend errors instead of passing them
through. -/
theorem claim_C4 (st : NetFuseState) (parent : Nat) (name : OsString) (e : Int)
    (parent_inode : Inode)
    (hchild : st.inodes.child parent (utf8Lossy name) = none)
    (hparent : st.inodes.get parent = some parent_inode)
    (hvis : parent_inode.visited = false) :
    NetFuse.lookup st (Except.error e) parent name = some (st, EntryReply.error ENOENT, true) := by
  unfold NetFuse.lookup
  simp only []
  rw [hchild]
  simp only []
  rw [hparent]
  simp only [Option.some_bind]
  rw [if_neg (by rw [hvis]; simp)]

/-- Witness for C4: a backend EACCES-like failure (errno 99) on a fresh
mount is replied as ENOENT. -/
theorem claim_C4_witness :
    NetFuse.lookup netFreshState (Except.error 99) 1 [97] =
      some (netFreshState, EntryReply.error ENOENT, true) :=
  claim_C4 netFreshState 1 [97] 99
    (Inode.new rootPath (rootAttr 360 1000 1000 tsZero)) rfl rfl rfl

/-- Counterexample for C4 as stated: a backend failure with errno EACCES is
replied as errno ENOENT, not passed through unchanged. -/
theorem claim_C4_counterexample :
    NetFuse.lookup netFreshState (Except.error EACCES) 1 [97] =
      some (netFreshState, EntryReply.error ENOENT, true) ∧
    EntryReply.error ENOENT ≠ EntryReply.error EACCES := by
  refine ⟨by decide, by decide⟩

/-- Claim C3 (amended): CacheEntry::write sets warm and clears sync, and
leaves the buffer at length exactly offset + data.len — Vec::resize
truncates a longer buffer, so bytes at or past offset + data.len are
discarded rather than kept.  Bytes below offset keep their previous values,
any gap between the old length and offset is zero-filled, and data occupies
the range from offset; in particular a five-byte write at offset 10 into an
empty entry yields 15 bytes with bytes 0 through 9 zero. -/
theorem claim_C3 (e : CacheEntry) (offset : Nat) (data : List Nat) :
    (e.write offset data).warm = true ∧ (e.write offset data).sync = false ∧
    (e.write offset data).data.length = offset + data.length ∧
    (∀ i, i < offset → i < e.data.length → (e.write offset data).data[i]? = e.data[i]?) ∧
    (∀ i, e.data.length ≤ i → i < offset → (e.write offset data).data[i]? = some 0) ∧
    (∀ i, i < data.length → (e.write offset data).data[offset + i]? = data[i]?) := by
  have hreslen : (listResize e.data (offset + data.length) 0).length = offset + data.length := by
    unfold listResize
    split_ifs with h <;>
      simp only [List.length_take, List.length_append, List.length_replicate] <;> omega
  have hwdata : (e.write offset data).data =
      (listResize e.data (offset + data.length) 0).take offset ++ data := by
    unfold CacheEntry.write
    dsimp only []
    rw [List.drop_eq_nil_of_le (le_of_eq hreslen), List.append_nil]
  have htakelen : ((listResize e.data (offset + data.length) 0).take offset).length = offset := by
    simp only [List.length_take, hreslen]
    omega
  refine ⟨rfl, rfl, ?_, ?_, ?_, ?_⟩
  · rw [hwdata, List.length_append, htakelen]
  · intro i h1 h2
    rw [hwdata, List.getElem?_append_left (by rw [htakelen]; omega), List.getElem?_take,
      if_pos h1]
    unfold listResize
    split_ifs with h
    · rw [List.getElem?_take, if_pos (by omega)]
    · rw [List.getElem?_append_left h2]
  · intro i h1 h2
    rw [hwdata, List.getElem?_append_left (by rw [htakelen]; omega), List.getElem?_take,
      if_pos h2]
    unfold listResize
    split_ifs with h
    · exfalso
      omega
    · rw [List.getElem?_append_right h1, List.getElem?_replicate, if_pos (by omega)]
  · intro i h1
    rw [hwdata, List.getElem?_append_right (by rw [htakelen]; omega), htakelen,
      Nat.add_sub_cancel_left]

/-- Witness for C3: the five-byte write at offset 10 into an empty entry
yields a 15-byte buffer, with byte 3 zero and byte 10 the first data byte,
and sets warm and clears sync. -/
theorem claim_C3_witness :
    (c3Empty.write 10 [5, 5, 5, 5, 5]).data.length = 10 + 5 ∧
    (c3Empty.write 10 [5, 5, 5, 5, 5]).data[3]? = some 0 ∧
    (c3Empty.write 10 [5, 5, 5, 5, 5]).data[10 + 0]? = ([5, 5, 5, 5, 5] : List Nat)[0]? ∧
    (c3Empty.write 10 [5, 5, 5, 5, 5]).warm = true ∧
    (c3Empty.write 10 [5, 5, 5, 5, 5]).sync = false := by
  have h := claim_C3 c3Empty 10 [5, 5, 5, 5, 5]
  exact ⟨h.2.2.1, h.2.2.2.2.1 3 (by decide) (by decide), h.2.2.2.2.2 0 (by decide), h.1, h.2.1⟩

/-- Counterexample for C3 as stated: writing one byte at offset 0 over a
five-byte entry truncates the buffer to one byte — the old byte at index 1
does not keep its previous value, it is gone. -/
theorem claim_C3_counterexample :
    (c3Entry.write 0 [9]).data = [9] ∧ c3Entry.data[1]? = some 2 ∧
    (c3Entry.write 0 [9]).data[1]? = none := by
  refine ⟨by decide, by decide, by decide⟩

/-- Claim C1 (code evaluated at the failing input): after a successful
readdir of the root on a fresh mount the visited flag of the root is still false
— no code path sets it — so a second readdir consults the backend again and
even reports the child "a" under a fresh ino 3 instead of the previous 2. -/
theorem claim_C1 :
    ((NetFuse.readdir netFreshState c1Backend 1 0).map
        (fun r => ((r.1.inodes.get 1).map (·.visited), r.2.2, r.2.1))) =
      some (some false, true,
        DirReply.ok [([46], 1, .directory), ([46, 46], 1, .directory), ([97], 2, .regularFile)]) ∧
    ((NetFuse.readdir c1After1 c1Backend 1 0).map
        (fun r => ((r.1.inodes.get 1).map (·.visited), r.2.2, r.2.1))) =
      some (some false, true,
        DirReply.ok [([46], 1, .directory), ([46, 46], 1, .directory), ([97], 3, .regularFile)]) := by
  refine ⟨by decide, by decide⟩
